import Mathlib

/-!
# Verification of the FitzHugh-Nagumo knot-surface simulation

A shallow embedding of `FN_knot_surface_openmp.cpp`: the reaction-diffusion
integrator (`uv_update`, `uv_add`, `uv_update_euler`), the field seeding
(`uv_initialise`), the scalar-potential computation (`phi_calc`), the
cross-gradient scan (`crossgrad_calc`), the filament tracker and the
writhe integral of `find_knot_properties`, and the per-sample bookkeeping
of the main loop.  Grid fields are modelled as real-valued functions of
integer coordinates; the C `double` arithmetic is idealised as real
arithmetic.  The neighbour-index helpers `incw`/`incp` and the constant
`sixth` live in the header `FN_knot_surface.h`, which is not part of the
sources; they are modelled from the spec (section 4.1 and the RK4
description in section 4.3).
-/

noncomputable section

namespace FNKnot

/-- Run parameters of the simulation, gathered from the global constants of
`FN_knot_surface_openmp.cpp` (`Nx`, `Ny`, `Nz`, `h`, `dtime`, `epsilon`,
`beta`, `gam`, `lambda`, `periodic`).  They are kept abstract so that the
theorems quantify over every configuration. -/
structure Params where
  Nx : ℤ
  Ny : ℤ
  Nz : ℤ
  h : ℝ
  dtime : ℝ
  epsilon : ℝ
  beta : ℝ
  gam : ℝ
  lambda : ℝ
  periodic : Bool

/-- A grid field: one real value per integer cell coordinate.  The C code
stores fields in flat arrays indexed by `pt(i,j,k) = i*Ny*Nz + j*Nz + k`;
the functional view is indexed by the coordinates directly. -/
def Field : Type := ℤ → ℤ → ℤ → ℝ

/-- Modelled from the spec: `incw` is defined in the missing header
`FN_knot_surface.h`; section 4.1 specifies the clamped (reflecting)
neighbour as `clamp(i+delta, 0, extent-1)`. -/
def incw (i p N : ℤ) : ℤ := max 0 (min (N - 1) (i + p))

/-- Modelled from the spec: `incp` is defined in the missing header
`FN_knot_surface.h`; section 4.1 specifies the periodic neighbour as
`((i+delta) mod extent + extent) mod extent`. -/
def incp (i p N : ℤ) : ℤ := ((i + p) % N + N) % N

/-- Modelled from the spec: the constant `sixth` of the missing header,
used by `uv_update` to combine the four stages as the weighted average
`(k0 + 2k1 + 2k2 + k3)/6` (spec section 4.3). -/
def sixth : ℝ := 1 / 6

/-- `oneoverhsq = 1.0/(h*h)` from the source. -/
def oneoverhsq (P : Params) : ℝ := 1 / (P.h * P.h)

/-- `oneoverepsilon = 1.0/epsilon` from the source. -/
def oneoverepsilon (P : Params) : ℝ := 1 / P.epsilon

/-- `x[i] = (i+0.5-Nx/2.0)*h` from the grid initialisation in `main`. -/
def xcoord (P : Params) (i : ℤ) : ℝ := ((i : ℝ) + 1 / 2 - (P.Nx : ℝ) / 2) * P.h

/-- `y[j] = (j+0.5-Ny/2.0)*h` from the grid initialisation in `main`. -/
def ycoord (P : Params) (j : ℤ) : ℝ := ((j : ℝ) + 1 / 2 - (P.Ny : ℝ) / 2) * P.h

/-- `z[k] = (k+0.5-Nz/2.0)*h` from the grid initialisation in `main`. -/
def zcoord (P : Params) (k : ℤ) : ℝ := ((k : ℝ) + 1 / 2 - (P.Nz : ℝ) / 2) * P.h

/-- One stage of `uv_update`: the body of the inner triple loop computing
`ku[n] = oneoverepsilon*(u - u*u*u/3 - v) + D2u` with
`D2u = oneoverhsq*(u[i+1]+u[i-1]+u[j+1]+u[j-1]+u[kup]+u[kdwn]-6u)` and
`kv[n] = epsilon*(u + beta - gam*v)`, where the z neighbours use `incp`
when `periodic` and `incw` otherwise. -/
def kstage (P : Params) (u v : Field) : Field × Field :=
  (fun i j k =>
    oneoverepsilon P * (u i j k - u i j k * u i j k * u i j k / 3 - v i j k) +
      oneoverhsq P *
        (u (incw i 1 P.Nx) j k + u (incw i (-1) P.Nx) j k +
          u i (incw j 1 P.Ny) k + u i (incw j (-1) P.Ny) k +
          u i j (if P.periodic then incp k 1 P.Nz else incw k 1 P.Nz) +
          u i j (if P.periodic then incp k (-1) P.Nz else incw k (-1) P.Nz) -
          6 * u i j k),
   fun i j k => P.epsilon * (u i j k + P.beta - P.gam * v i j k))

/-- `uv_add`: over every cell, `u[n] = uold[n] + dtime*inc*ku[n]`,
`v[n] = vold[n] + dtime*inc*kv[n]`, `kut[n] += coeff*ku[n]`,
`kvt[n] += coeff*kv[n]`.  Returns the new `(u, v, kut, kvt)`. -/
def uv_add (P : Params) (uold vold ku kv kut kvt : Field) (inc coeff : ℝ) :
    Field × Field × Field × Field :=
  (fun i j k => uold i j k + P.dtime * inc * ku i j k,
   fun i j k => vold i j k + P.dtime * inc * kv i j k,
   fun i j k => kut i j k + coeff * ku i j k,
   fun i j k => kvt i j k + coeff * kv i j k)

/-- `uv_update`: snapshot `uold`, `vold`, zero the accumulators, then four
stage computations; `uv_add` with `(inc, coeff) = (0.5, 1), (0.5, 2), (1, 2)`
after the first three stages, and the final write
`u[n] = uold[n] + dtime*sixth*(kut[n] + ku[n])` after the fourth. -/
def uv_update (P : Params) (u v : Field) : Field × Field :=
  let uold := u
  let vold := v
  let kut0 : Field := fun _ _ _ => 0
  let kvt0 : Field := fun _ _ _ => 0
  let k1 := kstage P u v
  let a1 := uv_add P uold vold k1.1 k1.2 kut0 kvt0 (1 / 2) 1
  let k2 := kstage P a1.1 a1.2.1
  let a2 := uv_add P uold vold k2.1 k2.2 a1.2.2.1 a1.2.2.2 (1 / 2) 2
  let k3 := kstage P a2.1 a2.2.1
  let a3 := uv_add P uold vold k3.1 k3.2 a2.2.2.1 a2.2.2.2 1 2
  let k4 := kstage P a3.1 a3.2.1
  (fun i j k => uold i j k + P.dtime * sixth * (a3.2.2.1 i j k + k4.1 i j k),
   fun i j k => vold i j k + P.dtime * sixth * (a3.2.2.2 i j k + k4.2 i j k))

/-- The Laplacian array of `uv_update_euler`:
`D2u[n] = (u[i+1]+u[i-1]+u[j+1]+u[j-1]+u[kup]+u[kdwn]-6u)/(h*h)`. -/
def D2euler (P : Params) (u : Field) : Field := fun i j k =>
  (u (incw i 1 P.Nx) j k + u (incw i (-1) P.Nx) j k +
    u i (incw j 1 P.Ny) k + u i (incw j (-1) P.Ny) k +
    u i j (if P.periodic then incp k 1 P.Nz else incw k 1 P.Nz) +
    u i j (if P.periodic then incp k (-1) P.Nz else incw k (-1) P.Nz) -
    6 * u i j k) / (P.h * P.h)

/-- `uv_update_euler`: the Laplacian is computed once from the start-of-step
`u`; then, cell by cell, `u[n] = u[n] + dtime*((u-u*u*u/3-v)/epsilon + D2u[n])`
followed by `v[n] = v[n] + dtime*(epsilon*(u[n] + beta - gam*v[n]))` — the
`v` line reads `u[n]` after the previous line overwrote it, so the `v`
derivative sees the updated `u`. -/
def uv_update_euler (P : Params) (u v : Field) : Field × Field :=
  let D2u := D2euler P u
  let unew : Field := fun i j k =>
    u i j k +
      P.dtime * ((u i j k - u i j k * u i j k * u i j k / 3 - v i j k) / P.epsilon + D2u i j k)
  let vnew : Field := fun i j k =>
    v i j k + P.dtime * (P.epsilon * (unew i j k + P.beta - P.gam * v i j k))
  (unew, vnew)

/-- `uv_initialise`: `u[n] = 2*cos(phi[n]) - 0.4`, `v[n] = sin(phi[n]) - 0.4`
for every cell. -/
def uv_initialise (phi : Field) : Field × Field :=
  (fun i j k => 2 * Real.cos (phi i j k) - 0.4,
   fun i j k => Real.sin (phi i j k) - 0.4)

/-- The all-ones field, used as a concrete input. -/
def uone : Field := fun _ _ _ => 1

/-- The all-zeros field, used as a concrete input. -/
def vzero : Field := fun _ _ _ => 0

/-- A concrete 1-by-1-by-1 configuration with unit spacing and timestep. -/
def Pone : Params := ⟨1, 1, 1, 1, 1, 1, 0, 0, 1, false⟩

/-- `dxu` (or `dxv`): central-difference x-gradient
`0.5*(w[incw(i,1,Nx)] - w[incw(i,-1,Nx)])/h` from `crossgrad_calc`. -/
def gradx (P : Params) (w : Field) : Field := fun i j k =>
  1 / 2 * (w (incw i 1 P.Nx) j k - w (incw i (-1) P.Nx) j k) / P.h

/-- Central-difference y-gradient from `crossgrad_calc`. -/
def grady (P : Params) (w : Field) : Field := fun i j k =>
  1 / 2 * (w i (incw j 1 P.Ny) k - w i (incw j (-1) P.Ny) k) / P.h

/-- Central-difference z-gradient from `crossgrad_calc`; the z neighbours
use `incp` when `periodic` and `incw` otherwise. -/
def gradz (P : Params) (w : Field) : Field := fun i j k =>
  1 / 2 * (w i j (if P.periodic then incp k 1 P.Nz else incw k 1 P.Nz) -
      w i j (if P.periodic then incp k (-1) P.Nz else incw k (-1) P.Nz)) / P.h

/-- `ucvx[n] = dyu*dzv - dzu*dyv` from `crossgrad_calc`. -/
def ucvx (P : Params) (u v : Field) : Field := fun i j k =>
  grady P u i j k * gradz P v i j k - gradz P u i j k * grady P v i j k

/-- `ucvy[n] = dzu*dxv - dxu*dzv` from `crossgrad_calc`. -/
def ucvy (P : Params) (u v : Field) : Field := fun i j k =>
  gradz P u i j k * gradx P v i j k - gradx P u i j k * gradz P v i j k

/-- `ucvz[n] = dxu*dyv - dyu*dxv` from `crossgrad_calc`. -/
def ucvz (P : Params) (u v : Field) : Field := fun i j k =>
  gradx P u i j k * grady P v i j k - grady P u i j k * gradx P v i j k

/-- `ucvmag = sqrt(ucvx^2 + ucvy^2 + ucvz^2)` from `crossgrad_calc`. -/
def ucvmag (P : Params) (u v : Field) : Field := fun i j k =>
  Real.sqrt (ucvx P u v i j k * ucvx P u v i j k + ucvy P u v i j k * ucvy P u v i j k +
    ucvz P u v i j k * ucvz P u v i j k)

/-- The cells of the grid in the scan order of `crossgrad_calc`
(`i` outer, `j` middle, `k` inner). -/
def cells (P : Params) : List (ℤ × ℤ × ℤ) :=
  (List.range P.Nx.toNat).flatMap fun i =>
    (List.range P.Ny.toNat).flatMap fun j =>
      (List.range P.Nz.toNat).map fun k : ℕ => ((i : ℤ), (j : ℤ), (k : ℤ))

/-- The running-maximum scan of `crossgrad_calc`: starting from
`ucvmax = -1.0`, each cell whose magnitude strictly exceeds the running
maximum replaces it and records its centre coordinates in `knotcurve[0]`.
Returns the final `(ucvmax, recorded coordinates)`. -/
def crossgrad_scan (P : Params) (u v : Field) : ℝ × (ℝ × ℝ × ℝ) :=
  (cells P).foldl
    (fun acc c =>
      if acc.1 < ucvmag P u v c.1 c.2.1 c.2.2 then
        (ucvmag P u v c.1 c.2.1 c.2.2, (xcoord P c.1, ycoord P c.2.1, zcoord P c.2.2))
      else acc)
    (-1, (0, 0, 0))

/-- `if(ucvmax<0.1) knotexists = false; else knotexists = true;` from
`crossgrad_calc`. -/
def crossgrad_knotexists (P : Params) (u v : Field) : Bool :=
  if (crossgrad_scan P u v).1 < 0.1 then false else true

/-- The default-constructed `knotpoint` pushed by `crossgrad_calc`
(its members are value-initialised here; the C++ struct leaves them
unspecified until the scan writes index 0). -/
def knotpointDefault : ℝ × ℝ × ℝ := (0, 0, 0)

/-- The curve/knotexists effect of one sampled output time in `main`:
`if(knotexists) knotcurve.clear();` followed by `crossgrad_calc`, which
pushes one default point and then overwrites `knotcurve[0]` with the
coordinates of each new running maximum (so, on a nonempty grid, index 0
ends at the coordinates of the final maximum).  `find_knot_properties` and
`print_knot` are commented out in the source, so nothing else touches the
curve at a sample. -/
def sampleCurveStep (P : Params) (u v : Field) (curve : List (ℝ × ℝ × ℝ))
    (knotexists : Bool) : List (ℝ × ℝ × ℝ) × Bool :=
  let base := if knotexists then [] else curve
  let pushed := base ++ [knotpointDefault]
  let curve' := if cells P = [] then pushed else pushed.set 0 (crossgrad_scan P u v).2
  (curve', crossgrad_knotexists P u v)

/-- One pass of the sampled-output-time block of `main` (`n*dtime >= q`):
the curve/knotexists update, together with the list of data lines appended
to `writhe.txt` during the sample.  The only writer of such lines,
`find_knot_properties`, is invoked nowhere: its call site inside
`if(n*dtime+starttime>=10 && knotexists)` is commented out, so both
branches of the gate append nothing. -/
def sampleStep (P : Params) (u v : Field) (curve : List (ℝ × ℝ × ℝ))
    (knotexists : Bool) (t : ℝ) :
    (List (ℝ × ℝ × ℝ) × Bool) × List (ℝ × ℝ × ℝ × ℝ) :=
  let cs := sampleCurveStep P u v curve knotexists
  (cs, if 10 ≤ t ∧ knotexists = true then [] else [])

/-- A stale curve as left by a sample at which no filament was detected:
the seed slot plus one extra point. -/
def staleCurve : List (ℝ × ℝ × ℝ) := [(42, 0, 0), (7, 7, 7)]

/-- A surface triangle as read by the excluded loader: centroid, unit
normal and area (the fields of the `triangle` struct that `phi_calc`
reads). -/
structure Triangle where
  centre : ℝ × ℝ × ℝ
  normal : ℝ × ℝ × ℝ
  area : ℝ

/-- The raw surface sum of `phi_calc` at a sample point: over all
triangles, `(r·n)*area/(2*r^3)` with `r = centre - point`, a triangle
contributing only when `r > 0` (`if(r>0) phi[n] += ...`). -/
def phiSum (tris : List Triangle) (px py pz : ℝ) : ℝ :=
  tris.foldl
    (fun acc T =>
      let rx := T.centre.1 - px
      let ry := T.centre.2.1 - py
      let rz := T.centre.2.2 - pz
      let r := Real.sqrt (rx * rx + ry * ry + rz * rz)
      if 0 < r then
        acc +
          (rx * T.normal.1 + ry * T.normal.2.1 + rz * T.normal.2.2) * T.area / (2 * r * r * r)
      else acc)
    0

/-- `while(phi[n]>M_PI) phi[n] -= 2*M_PI;` from `phi_calc`. -/
def wrapDown (phi : ℝ) : ℝ :=
  if h : Real.pi < phi then wrapDown (phi - 2 * Real.pi) else phi
termination_by (⌈(phi - Real.pi) / (2 * Real.pi)⌉).toNat
decreasing_by
  have hpi := Real.pi_pos
  have h2 : (0 : ℝ) < 2 * Real.pi := by linarith
  have he : (phi - 2 * Real.pi - Real.pi) / (2 * Real.pi)
      = (phi - Real.pi) / (2 * Real.pi) - 1 := by
    field_simp
    ring
  have hc : (0 : ℤ) < ⌈(phi - Real.pi) / (2 * Real.pi)⌉ :=
    Int.ceil_pos.mpr (div_pos (by linarith) h2)
  rw [he, Int.ceil_sub_one]
  omega

/-- `while(phi[n]<-M_PI) phi[n] += 2*M_PI;` from `phi_calc`. -/
def wrapUp (phi : ℝ) : ℝ :=
  if h : phi < -Real.pi then wrapUp (phi + 2 * Real.pi) else phi
termination_by (⌈(-Real.pi - phi) / (2 * Real.pi)⌉).toNat
decreasing_by
  have hpi := Real.pi_pos
  have h2 : (0 : ℝ) < 2 * Real.pi := by linarith
  have he : (-Real.pi - (phi + 2 * Real.pi)) / (2 * Real.pi)
      = (-Real.pi - phi) / (2 * Real.pi) - 1 := by
    field_simp
    ring
  have hc : (0 : ℤ) < ⌈(-Real.pi - phi) / (2 * Real.pi)⌉ :=
    Int.ceil_pos.mpr (div_pos (by linarith) h2)
  rw [he, Int.ceil_sub_one]
  omega

/-- Both wrap loops of `phi_calc`, in source order: first reduce while the
value exceeds `π`, then raise while it is below `-π`. -/
def wrap (phi : ℝ) : ℝ := wrapUp (wrapDown phi)

/-- `phi_calc`: for every grid cell, the wrapped surface sum evaluated at
the cell centre `(x[i], y[j], z[k])`. -/
def phi_calc (P : Params) (tris : List Triangle) : Field := fun i j k =>
  wrap (phiSum tris (xcoord P i) (ycoord P j) (zcoord P k))

/-- A single triangle at unit distance from the origin cell whose kernel
contributes exactly `-π`. -/
def dipoleTriangle : Triangle := ⟨(1, 0, 0), (-1, 0, 0), 2 * Real.pi⟩

/-- `knotcurve[t]` access during the invariant integrals, with the curve
as a list of point positions (the integrals read only the coordinates). -/
def curveGet (c : List (ℝ × ℝ × ℝ)) (t : ℤ) : ℝ × ℝ × ℝ := c.getD t.toNat (0, 0, 0)

/-- One summand of the writhe double integral of `find_knot_properties`,
for an ordered pair `s ≠ m`: with `ds = 2π/NP`, forward differences
`d?ds = (P[s+1]-P[s])/ds`, `d?dm = (P[m+1]-P[m])/ds`, midpoint separation
`?diff = 0.5*(P[s+1]+P[s]-P[m+1]-P[m])`, the contribution is
`ds*(triple product)/(4π*|diff|^2*|diff|)`. -/
def writheTerm (c : List (ℝ × ℝ × ℝ)) (s m : ℕ) : ℝ :=
  let NP := c.length
  let ds := 2 * Real.pi / NP
  let xdiff := 1 / 2 *
    ((curveGet c (incp s 1 NP)).1 + (curveGet c s).1 -
      (curveGet c (incp m 1 NP)).1 - (curveGet c m).1)
  let ydiff := 1 / 2 *
    ((curveGet c (incp s 1 NP)).2.1 + (curveGet c s).2.1 -
      (curveGet c (incp m 1 NP)).2.1 - (curveGet c m).2.1)
  let zdiff := 1 / 2 *
    ((curveGet c (incp s 1 NP)).2.2 + (curveGet c s).2.2 -
      (curveGet c (incp m 1 NP)).2.2 - (curveGet c m).2.2)
  let dxds := ((curveGet c (incp s 1 NP)).1 - (curveGet c s).1) / ds
  let dyds := ((curveGet c (incp s 1 NP)).2.1 - (curveGet c s).2.1) / ds
  let dzds := ((curveGet c (incp s 1 NP)).2.2 - (curveGet c s).2.2) / ds
  let dxdm := ((curveGet c (incp m 1 NP)).1 - (curveGet c m).1) / ds
  let dydm := ((curveGet c (incp m 1 NP)).2.1 - (curveGet c m).2.1) / ds
  let dzdm := ((curveGet c (incp m 1 NP)).2.2 - (curveGet c m).2.2) / ds
  ds * (xdiff * (dyds * dzdm - dzds * dydm) + ydiff * (dzds * dxdm - dxds * dzdm) +
      zdiff * (dxds * dydm - dyds * dxdm)) /
    (4 * Real.pi * (xdiff * xdiff + ydiff * ydiff + zdiff * zdiff) *
      Real.sqrt (xdiff * xdiff + ydiff * ydiff + zdiff * zdiff))

/-- `totwrithe` of `find_knot_properties`: `knotcurve[s].writhe` sums the
kernel over all `m != s`, and the totals accumulate `writhe*ds` over `s`. -/
def totwrithe (c : List (ℝ × ℝ × ℝ)) : ℝ :=
  ∑ s ∈ Finset.range c.length,
    (∑ m ∈ Finset.range c.length, if s ≠ m then writheTerm c s m else 0) *
      (2 * Real.pi / c.length)

/-- A closed unit square lying in the plane `z = 0`. -/
def squareCurve : List (ℝ × ℝ × ℝ) := [(0, 0, 0), (1, 0, 0), (1, 1, 0), (0, 1, 0)]

/-- C-style cast of a `double` to `int`: truncation toward zero, used for
`idwn = (int) ((xcoord/h) - 0.5 + Nx/2.0)` in `find_knot_properties`. -/
def ctrunc (r : ℝ) : ℤ := if 0 ≤ r then ⌊r⌋ else -⌊-r⌋

/-- `idwn` of a tracker point. -/
def idwn (P : Params) (px : ℝ) : ℤ := ctrunc (px / P.h - 1 / 2 + (P.Nx : ℝ) / 2)

/-- `jdwn` of a tracker point. -/
def jdwn (P : Params) (py : ℝ) : ℤ := ctrunc (py / P.h - 1 / 2 + (P.Ny : ℝ) / 2)

/-- `kdwn` of a tracker point. -/
def kdwn (P : Params) (pz : ℝ) : ℤ := ctrunc (pz / P.h - 1 / 2 + (P.Nz : ℝ) / 2)

/-- The tracker's early-exit test:
`idwn<0 || jdwn<0 || kdwn<0 || idwn>Nx-1 || jdwn>Ny-1 || kdwn>Nz-1`. -/
def stencilOOB (P : Params) (p : ℝ × ℝ × ℝ) : Bool :=
  idwn P p.1 < 0 || jdwn P p.2.1 < 0 || kdwn P p.2.2 < 0 ||
    P.Nx - 1 < idwn P p.1 || P.Ny - 1 < jdwn P p.2.1 || P.Nz - 1 < kdwn P p.2.2

/-- Trilinear interpolation of a field from the 8 enclosing grid points,
as in `find_knot_properties` and `my_f`: increments `iinc = m%2`,
`jinc = (m/2)%2`, `kinc = (m/4)%2`, clamped (or z-periodic) neighbour
indices, and prefactor
`(1-iinc+(-1)^(1+iinc)*xd)*(1-jinc+(-1)^(1+jinc)*yd)*(1-kinc+(-1)^(1+kinc)*zd)`. -/
def interp (P : Params) (F : Field) (px py pz : ℝ) : ℝ :=
  let i0 := idwn P px
  let j0 := jdwn P py
  let k0 := kdwn P pz
  let xd := (px - xcoord P i0) / P.h
  let yd := (py - ycoord P j0) / P.h
  let zd := (pz - zcoord P k0) / P.h
  ((List.range 8).map fun m : ℕ =>
      let iinc := m % 2
      let jinc := m / 2 % 2
      let kinc := m / 4 % 2
      let i := incw i0 (iinc : ℤ) P.Nx
      let j := incw j0 (jinc : ℤ) P.Ny
      let k := if P.periodic then incp k0 (kinc : ℤ) P.Nz else incw k0 (kinc : ℤ) P.Nz
      (1 - (iinc : ℝ) + (-1 : ℝ) ^ (1 + iinc) * xd) *
        (1 - (jinc : ℝ) + (-1 : ℝ) ^ (1 + jinc) * yd) *
        (1 - (kinc : ℝ) + (-1 : ℝ) ^ (1 + kinc) * zd) * F i j k).sum

/-- The point-placing loop of `find_knot_properties`.  `s` is the index of
the point about to be placed (the curve holds points `0..s-1`); `d` is the
loop-carried `(xdiff, ydiff, zdiff)` distance-to-start vector (a local
variable in the source, uninitialised before the first iteration; the
caller passes an arbitrary start value).  An iteration exits early when
the interpolation stencil of the newest point leaves the grid; otherwise
it interpolates and normalises the cross-gradient direction, commits the
fixed step `0.5*direction*lambda/(32π)` from the previous point (the GSL
minimiser refinement is computed but immediately overwritten, so it does
not affect the committed point), and finishes when the newest point is
within `lambda/(2π)` of the start after `s > 32`, or when `s > 50000`. -/
def trackLoop (P : Params) (ux uy uz : Field) :
    ℕ → List (ℝ × ℝ × ℝ) → ℝ × ℝ × ℝ → List (ℝ × ℝ × ℝ) × (ℝ × ℝ × ℝ)
  | s, curve, d =>
    let prev := curve.getD (s - 1) (0, 0, 0)
    if stencilOOB P prev then (curve, d)
    else
      let uxs := interp P ux prev.1 prev.2.1 prev.2.2
      let uys := interp P uy prev.1 prev.2.1 prev.2.2
      let uzs := interp P uz prev.1 prev.2.1 prev.2.2
      let nrm := Real.sqrt (uxs * uxs + uys * uys + uzs * uzs)
      let npt : ℝ × ℝ × ℝ :=
        (prev.1 + 1 / 2 * (uxs / nrm) * P.lambda / (32 * Real.pi),
         prev.2.1 + 1 / 2 * (uys / nrm) * P.lambda / (32 * Real.pi),
         prev.2.2 + 1 / 2 * (uzs / nrm) * P.lambda / (32 * Real.pi))
      let curve' := curve ++ [npt]
      let start := curve'.getD 0 (0, 0, 0)
      let d' : ℝ × ℝ × ℝ :=
        (start.1 - npt.1, start.2.1 - npt.2.1, start.2.2 - npt.2.2)
      if h2 : (Real.sqrt (d'.1 * d'.1 + d'.2.1 * d'.2.1 + d'.2.2 * d'.2.2) <
            P.lambda / (2 * Real.pi) ∧ 32 < s) ∨ 50000 < s then
        (curve', d')
      else trackLoop P ux uy uz (s + 1) curve' d'
termination_by s _ _ => 50001 - s
decreasing_by
  omega

/-- The seam-filling loop after the tracker: 15 extra points, each the
previous point advanced by one sixteenth of the final distance-to-start
vector. -/
def fillSeam (cd : List (ℝ × ℝ × ℝ) × (ℝ × ℝ × ℝ)) : List (ℝ × ℝ × ℝ) :=
  let dx := cd.2.1 / 16
  let dy := cd.2.2.1 / 16
  let dz := cd.2.2.2 / 16
  (List.range 15).foldl
    (fun c _ =>
      let lastp := c.getD (c.length - 1) (0, 0, 0)
      c ++ [(lastp.1 + dx, lastp.2.1 + dy, lastp.2.2 + dz)])
    cd.1

/-- The curve produced by the tracking part of `find_knot_properties`:
the loop starting at `s = 1` from the seed curve, then the seam filling. -/
def find_knot_trace (P : Params) (ux uy uz : Field)
    (curve0 : List (ℝ × ℝ × ℝ)) : List (ℝ × ℝ × ℝ) :=
  fillSeam (trackLoop P ux uy uz 1 curve0 (0, 0, 0))

/-- C1: one `uv_update` step is the classical RK4 combination: each stage
derivative is `kstage` (reaction term plus 6-neighbour Laplacian, the
Laplacian recomputed from the intermediate fields), the intermediate states
add `dtime` times the fractions `1/2, 1/2, 1` of the previous stage's
derivative to the start-of-step fields, and the cell is replaced by the
start value plus `dtime` times `(k1 + 2*k2 + 2*k3 + k4)/6`. -/
theorem uv_update_is_rk4 (P : Params) (u v : Field) (i j k : ℤ) :
    let k1 := kstage P u v
    let u2 : Field := fun a b c => u a b c + P.dtime * (1 / 2) * k1.1 a b c
    let v2 : Field := fun a b c => v a b c + P.dtime * (1 / 2) * k1.2 a b c
    let k2 := kstage P u2 v2
    let u3 : Field := fun a b c => u a b c + P.dtime * (1 / 2) * k2.1 a b c
    let v3 : Field := fun a b c => v a b c + P.dtime * (1 / 2) * k2.2 a b c
    let k3 := kstage P u3 v3
    let u4 : Field := fun a b c => u a b c + P.dtime * 1 * k3.1 a b c
    let v4 : Field := fun a b c => v a b c + P.dtime * 1 * k3.2 a b c
    let k4 := kstage P u4 v4
    (uv_update P u v).1 i j k =
      u i j k + P.dtime * ((k1.1 i j k + 2 * k2.1 i j k + 2 * k3.1 i j k + k4.1 i j k) / 6) ∧
    (uv_update P u v).2 i j k =
      v i j k + P.dtime * ((k1.2 i j k + 2 * k2.2 i j k + 2 * k3.2 i j k + k4.2 i j k) / 6) := by
  simp only [uv_update, uv_add, sixth]
  constructor <;> ring

/-- C2 counterexample: the Euler step's `v` update does not use the
start-of-step `u`.  On a 1-cell grid with `u = 1`, `v = 0`, unit parameters,
the code yields `v' = 5/3` while the claimed formula
`v + dtime*epsilon*(u + beta - gam*v)` gives `1`. -/
theorem euler_v_not_start_of_step :
    (uv_update_euler Pone uone vzero).2 0 0 0 ≠
      vzero 0 0 0 +
        Pone.dtime * (Pone.epsilon * (uone 0 0 0 + Pone.beta - Pone.gam * vzero 0 0 0)) := by
  simp only [uv_update_euler, D2euler, Pone, uone, vzero, incw]
  norm_num

/-- C2 amended: the Euler step sets
`u' = u + dtime*((u - u^3/3 - v)/epsilon + D2u)` with the Laplacian computed
once from the start-of-step `u` and the `u` derivative evaluated at
start-of-step values, but the `v` derivative is evaluated at the already
updated `u'`: `v' = v + dtime*epsilon*(u' + beta - gam*v)`. -/
theorem euler_step_formula (P : Params) (u v : Field) (i j k : ℤ) :
    (uv_update_euler P u v).1 i j k =
      u i j k +
        P.dtime * ((u i j k - u i j k ^ 3 / 3 - v i j k) / P.epsilon + D2euler P u i j k) ∧
    (uv_update_euler P u v).2 i j k =
      v i j k +
        P.dtime *
          (P.epsilon * ((uv_update_euler P u v).1 i j k + P.beta - P.gam * v i j k)) := by
  constructor
  · simp only [uv_update_euler]
    ring
  · simp only [uv_update_euler]

/-- At a constant state satisfying the `u` reaction fixed-point equation,
the first stage derivative vanishes at every cell. -/
theorem kstage_fst_eq_zero (P : Params) (u v : Field) (cu cv : ℝ)
    (hu : ∀ a b c, u a b c = cu) (hv : ∀ a b c, v a b c = cv)
    (h1 : (cu - cu ^ 3 / 3 - cv) / P.epsilon = 0) (i j k : ℤ) :
    (kstage P u v).1 i j k = 0 := by
  simp only [kstage, hu, hv, oneoverepsilon, oneoverhsq]
  linear_combination h1

/-- At a constant state satisfying the `v` reaction fixed-point equation,
the second stage derivative vanishes at every cell. -/
theorem kstage_snd_eq_zero (P : Params) (u v : Field) (cu cv : ℝ)
    (hu : ∀ a b c, u a b c = cu) (hv : ∀ a b c, v a b c = cv)
    (h2 : cu + P.beta - P.gam * cv = 0) (i j k : ℤ) :
    (kstage P u v).2 i j k = 0 := by
  simp only [kstage, hu, hv]
  linear_combination P.epsilon * h2

/-- C8: at a constant field pair where both reaction terms vanish, the
6-neighbour Laplacian is exactly zero at every cell and both one full RK4
step and one full Euler step leave the fields unchanged at every cell. -/
theorem constant_state_fixed_point (P : Params) (cu cv : ℝ)
    (h1 : (cu - cu ^ 3 / 3 - cv) / P.epsilon = 0)
    (h2 : cu + P.beta - P.gam * cv = 0) (i j k : ℤ) :
    D2euler P (fun _ _ _ => cu) i j k = 0 ∧
    (uv_update P (fun _ _ _ => cu) (fun _ _ _ => cv)).1 i j k = cu ∧
    (uv_update P (fun _ _ _ => cu) (fun _ _ _ => cv)).2 i j k = cv ∧
    (uv_update_euler P (fun _ _ _ => cu) (fun _ _ _ => cv)).1 i j k = cu ∧
    (uv_update_euler P (fun _ _ _ => cu) (fun _ _ _ => cv)).2 i j k = cv := by
  have hreac : cu - cu * cu * cu / 3 - cv = cu - cu ^ 3 / 3 - cv := by ring
  have hD2 : ∀ a b c : ℤ, D2euler P (fun _ _ _ => cu) a b c = 0 := by
    intro a b c
    simp only [D2euler]
    rw [show cu + cu + cu + cu + cu + cu - 6 * cu = 0 by ring, zero_div]
  have hk1u : ∀ a b c : ℤ, (kstage P (fun _ _ _ => cu) (fun _ _ _ => cv)).1 a b c = 0 :=
    fun a b c =>
      kstage_fst_eq_zero P _ _ cu cv (fun _ _ _ => rfl) (fun _ _ _ => rfl) h1 a b c
  have hk1v : ∀ a b c : ℤ, (kstage P (fun _ _ _ => cu) (fun _ _ _ => cv)).2 a b c = 0 :=
    fun a b c =>
      kstage_snd_eq_zero P _ _ cu cv (fun _ _ _ => rfl) (fun _ _ _ => rfl) h2 a b c
  have heu : (uv_update_euler P (fun _ _ _ => cu) (fun _ _ _ => cv)).1 i j k = cu := by
    simp only [uv_update_euler, hD2, add_zero]
    rw [hreac, h1]
    ring
  refine ⟨hD2 i j k, ?_, ?_, heu, ?_⟩
  · simp only [uv_update, uv_add, hk1u, hk1v, mul_zero, add_zero, zero_add, one_mul]
  · simp only [uv_update, uv_add, hk1u, hk1v, mul_zero, add_zero, zero_add, one_mul]
  · simp only [uv_update_euler] at heu ⊢
    rw [heu, h2, mul_zero, mul_zero, add_zero]

/-- Witness for `constant_state_fixed_point`: with `epsilon = gam = 1` and
`beta = 0`, the constant pair `u = v = 0` satisfies both fixed-point
equations and is preserved by one step on the 1-cell grid. -/
theorem constant_state_fixed_point_witness :
    ((0 : ℝ) - 0 ^ 3 / 3 - 0) / Pone.epsilon = 0 ∧
    (0 : ℝ) + Pone.beta - Pone.gam * 0 = 0 ∧
    (uv_update Pone (fun _ _ _ => 0) (fun _ _ _ => 0)).1 0 0 0 = 0 := by
  have h1 : ((0 : ℝ) - 0 ^ 3 / 3 - 0) / Pone.epsilon = 0 := by
    simp [Pone]
  have h2 : (0 : ℝ) + Pone.beta - Pone.gam * 0 = 0 := by
    simp [Pone]
  exact ⟨h1, h2, (constant_state_fixed_point Pone 0 0 h1 h2 0 0 0).2.1⟩

/-- C10: `uv_initialise` sets `u = 2*cos(phi) - 0.4` and `v = sin(phi) - 0.4`
at every cell; consequently the seeded pair always lies on the ellipse
`((u+0.4)/2)^2 + (v+0.4)^2 = 1`. -/
theorem uv_initialise_spec (phi : Field) (i j k : ℤ) :
    (uv_initialise phi).1 i j k = 2 * Real.cos (phi i j k) - 0.4 ∧
    (uv_initialise phi).2 i j k = Real.sin (phi i j k) - 0.4 ∧
    (((uv_initialise phi).1 i j k + 0.4) / 2) ^ 2 +
      ((uv_initialise phi).2 i j k + 0.4) ^ 2 = 1 := by
  refine ⟨rfl, rfl, ?_⟩
  have h := Real.sin_sq_add_cos_sq (phi i j k)
  simp only [uv_initialise]
  ring_nf
  linarith [h]

/-- The running-maximum fold never decreases the accumulated maximum. -/
theorem scan_foldl_init_le (f : ℤ × ℤ × ℤ → ℝ) (g : ℤ × ℤ × ℤ → ℝ × ℝ × ℝ) :
    ∀ (l : List (ℤ × ℤ × ℤ)) (acc : ℝ × (ℝ × ℝ × ℝ)),
      acc.1 ≤ (l.foldl (fun a c => if a.1 < f c then (f c, g c) else a) acc).1 := by
  intro l
  induction l with
  | nil => intro acc; exact le_refl _
  | cons c t ih =>
    intro acc
    rw [List.foldl_cons]
    refine le_trans ?_ (ih _)
    by_cases h : acc.1 < f c
    · rw [if_pos h]; exact le_of_lt h
    · rw [if_neg h]

/-- Every element's value is bounded by the final accumulated maximum. -/
theorem scan_foldl_mem_le (f : ℤ × ℤ × ℤ → ℝ) (g : ℤ × ℤ × ℤ → ℝ × ℝ × ℝ) :
    ∀ (l : List (ℤ × ℤ × ℤ)) (acc : ℝ × (ℝ × ℝ × ℝ)), ∀ c ∈ l,
      f c ≤ (l.foldl (fun a c => if a.1 < f c then (f c, g c) else a) acc).1 := by
  intro l
  induction l with
  | nil => intro acc c hc; exact absurd hc (List.not_mem_nil c)
  | cons c0 t ih =>
    intro acc c hc
    rw [List.foldl_cons]
    rcases List.mem_cons.mp hc with h | h
    · subst h
      refine le_trans ?_ (scan_foldl_init_le f g t _)
      by_cases h : acc.1 < f c
      · rw [if_pos h]
      · rw [if_neg h]; exact le_of_not_lt h
    · exact ih _ c h

/-- The fold result is the initial accumulator or the value/record pair of
some element of the list. -/
theorem scan_foldl_attained (f : ℤ × ℤ × ℤ → ℝ) (g : ℤ × ℤ × ℤ → ℝ × ℝ × ℝ) :
    ∀ (l : List (ℤ × ℤ × ℤ)) (acc : ℝ × (ℝ × ℝ × ℝ)),
      (l.foldl (fun a c => if a.1 < f c then (f c, g c) else a) acc) = acc ∨
        ∃ c ∈ l, (l.foldl (fun a c => if a.1 < f c then (f c, g c) else a) acc) = (f c, g c) := by
  intro l
  induction l with
  | nil => intro acc; exact Or.inl rfl
  | cons c0 t ih =>
    intro acc
    rw [List.foldl_cons]
    by_cases h : acc.1 < f c0
    · rw [if_pos h]
      rcases ih (f c0, g c0) with h1 | ⟨c, hc, hc2⟩
      · exact Or.inr ⟨c0, List.mem_cons_self c0 t, h1⟩
      · exact Or.inr ⟨c, List.mem_cons_of_mem _ hc, hc2⟩
    · rw [if_neg h]
      rcases ih acc with h1 | ⟨c, hc, hc2⟩
      · exact Or.inl h1
      · exact Or.inr ⟨c, List.mem_cons_of_mem _ hc, hc2⟩

/-- The origin cell belongs to a nonempty grid's scan order. -/
theorem origin_mem_cells (P : Params) (hx : 0 < P.Nx) (hy : 0 < P.Ny) (hz : 0 < P.Nz) :
    ((0 : ℤ), (0 : ℤ), (0 : ℤ)) ∈ cells P := by
  have hx' : (0 : ℕ) ∈ List.range P.Nx.toNat := List.mem_range.mpr (by omega)
  have hy' : (0 : ℕ) ∈ List.range P.Ny.toNat := List.mem_range.mpr (by omega)
  have hz' : (0 : ℕ) ∈ List.range P.Nz.toNat := List.mem_range.mpr (by omega)
  unfold cells
  refine List.mem_flatMap.mpr ⟨0, hx', ?_⟩
  refine List.mem_flatMap.mpr ⟨0, hy', ?_⟩
  refine List.mem_map.mpr ⟨0, hz', ?_⟩
  norm_num

/-- C5: on a nonempty grid, `crossgrad_calc`'s scan records in
`knotcurve[0]` the centre coordinates of a cell achieving the global
maximum of the cross-gradient magnitude (every cell's magnitude is below
or equal to the recorded maximum, and some cell attains it exactly at the
recorded coordinates), and it reports that no filament exists if and only
if that maximum is below the threshold `0.1`. -/
theorem crossgrad_records_max (P : Params) (u v : Field)
    (hx : 0 < P.Nx) (hy : 0 < P.Ny) (hz : 0 < P.Nz) :
    (∀ c ∈ cells P, ucvmag P u v c.1 c.2.1 c.2.2 ≤ (crossgrad_scan P u v).1) ∧
    (∃ c ∈ cells P,
        ucvmag P u v c.1 c.2.1 c.2.2 = (crossgrad_scan P u v).1 ∧
        (crossgrad_scan P u v).2 = (xcoord P c.1, ycoord P c.2.1, zcoord P c.2.2)) ∧
    (crossgrad_knotexists P u v = false ↔ (crossgrad_scan P u v).1 < 0.1) := by
  have hle : ∀ c ∈ cells P, ucvmag P u v c.1 c.2.1 c.2.2 ≤ (crossgrad_scan P u v).1 :=
    scan_foldl_mem_le (fun c => ucvmag P u v c.1 c.2.1 c.2.2)
      (fun c => (xcoord P c.1, ycoord P c.2.1, zcoord P c.2.2)) (cells P) (-1, (0, 0, 0))
  refine ⟨hle, ?_, ?_⟩
  · have h0 : (0 : ℝ) ≤ ucvmag P u v 0 0 0 := Real.sqrt_nonneg _
    have hne : (crossgrad_scan P u v).1 ≠ -1 := by
      have := hle _ (origin_mem_cells P hx hy hz)
      intro hcon
      rw [hcon] at this
      linarith
    rcases scan_foldl_attained (fun c => ucvmag P u v c.1 c.2.1 c.2.2)
        (fun c => (xcoord P c.1, ycoord P c.2.1, zcoord P c.2.2)) (cells P) (-1, (0, 0, 0)) with
      h | ⟨c, hc, hc2⟩
    · exact absurd (congrArg Prod.fst h) hne
    · refine ⟨c, hc, ?_, ?_⟩
      · exact (congrArg Prod.fst hc2).symm
      · exact congrArg Prod.snd hc2
  · unfold crossgrad_knotexists
    split
    · simpa using ‹(crossgrad_scan P u v).1 < 0.1›
    · simpa using ‹¬ (crossgrad_scan P u v).1 < 0.1›

/-- Witness for `crossgrad_records_max` on the concrete 1-cell grid. -/
theorem crossgrad_records_max_witness :
    (0 : ℤ) < Pone.Nx ∧
      (∃ c ∈ cells Pone,
        ucvmag Pone uone vzero c.1 c.2.1 c.2.2 = (crossgrad_scan Pone uone vzero).1 ∧
        (crossgrad_scan Pone uone vzero).2 =
          (xcoord Pone c.1, ycoord Pone c.2.1, zcoord Pone c.2.2)) :=
  ⟨by norm_num [Pone],
    (crossgrad_records_max Pone uone vzero (by norm_num [Pone]) (by norm_num [Pone])
      (by norm_num [Pone])).2.1⟩

/-- C9 counterexample: when no filament was detected at the previous sample
(`knotexists = false`), the next sampled output time does not clear the
curve: starting from the stale two-point curve, the point `(7,7,7)` from
the previous sample survives the step and the curve grows to three points
instead of being rebuilt from scratch. -/
theorem curve_point_persists :
    ((7 : ℝ), (7 : ℝ), (7 : ℝ)) ∈ (sampleCurveStep Pone vzero vzero staleCurve false).1 ∧
    (sampleCurveStep Pone vzero vzero staleCurve false).1.length = 3 := by
  have hcells : cells Pone = [((0 : ℤ), (0 : ℤ), (0 : ℤ))] := rfl
  constructor
  · simp [sampleCurveStep, staleCurve, hcells, knotpointDefault]
  · simp [sampleCurveStep, staleCurve, hcells, knotpointDefault]

/-- C9 amended: the curve is rebuilt from scratch only at sampled output
times where `knotexists` is true: in that case the result does not depend
on the previous curve at all. -/
theorem curve_rebuilt_when_knotexists (P : Params) (u v : Field)
    (curve curve' : List (ℝ × ℝ × ℝ)) :
    (sampleCurveStep P u v curve true).1 = (sampleCurveStep P u v curve' true).1 := rfl

/-- C3: at a sampled output time the block of `main` appends no line to the
time-series log `writhe.txt`, whatever the state — in particular even when
a filament exists and the start-skip gate `n*dtime+starttime >= 10` is
passed — because the only call to `find_knot_properties` is commented out.
This contradicts the file's own header ("A parametric curve for the knot is
found at each unit T") and the claim's expected one line per sample. -/
theorem sample_appends_no_writhe_line (P : Params) (u v : Field)
    (curve : List (ℝ × ℝ × ℝ)) (knotexists : Bool) (t : ℝ) :
    (sampleStep P u v curve knotexists t).2 = [] := by
  simp [sampleStep]

/-- Subtracting one period strictly decreases the wrap-loop measure. -/
theorem ceil_wrap_measure_lt (x : ℝ) (hx : 0 < x) :
    (⌈(x - 2 * Real.pi) / (2 * Real.pi)⌉).toNat < (⌈x / (2 * Real.pi)⌉).toNat := by
  have hpi := Real.pi_pos
  have h2 : (0 : ℝ) < 2 * Real.pi := by linarith
  have he : (x - 2 * Real.pi) / (2 * Real.pi) = x / (2 * Real.pi) - 1 := by
    field_simp
  have hc : (0 : ℤ) < ⌈x / (2 * Real.pi)⌉ := Int.ceil_pos.mpr (div_pos hx h2)
  rw [he, Int.ceil_sub_one]
  omega

/-- A value not above `π` is unchanged by the downward wrap loop. -/
theorem wrapDown_of_le (phi : ℝ) (h : phi ≤ Real.pi) : wrapDown phi = phi := by
  rw [wrapDown]
  exact dif_neg (not_lt.mpr h)

/-- A value not below `-π` is unchanged by the upward wrap loop. -/
theorem wrapUp_of_ge (phi : ℝ) (h : -Real.pi ≤ phi) : wrapUp phi = phi := by
  rw [wrapUp]
  exact dif_neg (not_lt.mpr h)

/-- The downward wrap loop always ends at a value at most `π`. -/
theorem wrapDown_le (phi : ℝ) : wrapDown phi ≤ Real.pi := by
  by_cases h : Real.pi < phi
  · rw [wrapDown, dif_pos h]
    exact wrapDown_le (phi - 2 * Real.pi)
  · rw [wrapDown, dif_neg h]
    exact not_lt.mp h
termination_by (⌈(phi - Real.pi) / (2 * Real.pi)⌉).toNat
decreasing_by
  rw [show phi - 2 * Real.pi - Real.pi = phi - Real.pi - 2 * Real.pi by ring]
  exact ceil_wrap_measure_lt _ (by linarith)

/-- The upward wrap loop always ends at a value at least `-π`. -/
theorem wrapUp_ge (phi : ℝ) : -Real.pi ≤ wrapUp phi := by
  by_cases h : phi < -Real.pi
  · rw [wrapUp, dif_pos h]
    exact wrapUp_ge (phi + 2 * Real.pi)
  · rw [wrapUp, dif_neg h]
    exact not_lt.mp h
termination_by (⌈(-Real.pi - phi) / (2 * Real.pi)⌉).toNat
decreasing_by
  rw [show -Real.pi - (phi + 2 * Real.pi) = -Real.pi - phi - 2 * Real.pi by ring]
  exact ceil_wrap_measure_lt _ (by linarith)

/-- The upward wrap loop preserves the upper bound `π`. -/
theorem wrapUp_le (phi : ℝ) (hle : phi ≤ Real.pi) : wrapUp phi ≤ Real.pi := by
  by_cases h : phi < -Real.pi
  · rw [wrapUp, dif_pos h]
    exact wrapUp_le (phi + 2 * Real.pi) (by have := Real.pi_pos; linarith)
  · rw [wrapUp, dif_neg h]
    exact hle
termination_by (⌈(-Real.pi - phi) / (2 * Real.pi)⌉).toNat
decreasing_by
  rw [show -Real.pi - (phi + 2 * Real.pi) = -Real.pi - phi - 2 * Real.pi by ring]
  exact ceil_wrap_measure_lt _ (by linarith)

/-- C4 counterexample: a single triangle at distance 1 from the origin
cell, with normal `(-1,0,0)` and area `2π`, makes the raw sum exactly
`-π`; both wrap loops leave `-π` unchanged, so the result is not in the
claimed interval `(-π, π]`. -/
theorem phi_calc_attains_neg_pi :
    phi_calc Pone [dipoleTriangle] 0 0 0 = -Real.pi ∧
    phi_calc Pone [dipoleTriangle] 0 0 0 ∉ Set.Ioc (-Real.pi) Real.pi := by
  have hpi := Real.pi_pos
  have hx : xcoord Pone 0 = 0 := by norm_num [xcoord, Pone]
  have hy : ycoord Pone 0 = 0 := by norm_num [ycoord, Pone]
  have hz : zcoord Pone 0 = 0 := by norm_num [zcoord, Pone]
  have hsum : phiSum [dipoleTriangle] 0 0 0 = -Real.pi := by
    simp only [phiSum, dipoleTriangle, List.foldl_cons, List.foldl_nil]
    norm_num [Real.sqrt_one]
    ring
  have hval : phi_calc Pone [dipoleTriangle] 0 0 0 = -Real.pi := by
    show wrap (phiSum [dipoleTriangle] (xcoord Pone 0) (ycoord Pone 0) (zcoord Pone 0))
      = -Real.pi
    rw [hx, hy, hz, hsum]
    unfold wrap
    rw [wrapDown_of_le _ (by linarith), wrapUp_of_ge _ (le_refl _)]
  refine ⟨hval, ?_⟩
  rw [hval]
  simp [Set.mem_Ioc]

/-- C4 amended: for every triangle list and every cell, `phi_calc` is the
wrap of the raw kernel sum (triangles whose centroid coincides with the
cell centre skipped), and the wrapped value lies in the closed interval
`[-π, π]` — values above `π` are reduced into `(-π, π]`, values below
`-π` are raised into `[-π, π)`, and a sum of exactly `-π` stays `-π`. -/
theorem phi_calc_range (P : Params) (tris : List Triangle) (i j k : ℤ) :
    phi_calc P tris i j k = wrap (phiSum tris (xcoord P i) (ycoord P j) (zcoord P k)) ∧
    -Real.pi ≤ phi_calc P tris i j k ∧ phi_calc P tris i j k ≤ Real.pi :=
  ⟨rfl, wrapUp_ge _, wrapUp_le _ (wrapDown_le _)⟩

/-- `incp` lands in `[0, N)` for positive `N`. -/
theorem incp_nonneg (i p N : ℤ) (hN : 0 < N) : 0 ≤ incp i p N :=
  Int.emod_nonneg _ (by omega)

/-- `incp` lands in `[0, N)` for positive `N`. -/
theorem incp_lt (i p N : ℤ) (hN : 0 < N) : incp i p N < N :=
  Int.emod_lt_of_pos _ hN

/-- An in-range curve access yields a member of the curve. -/
theorem curveGet_mem (c : List (ℝ × ℝ × ℝ)) (t : ℤ) (h : t.toNat < c.length) :
    curveGet c t ∈ c := by
  unfold curveGet
  rw [List.getD_eq_getElem c _ h]
  exact List.getElem_mem h

/-- Writhe summand of a curve lying in a plane of constant third
coordinate: every factor pairing with the vanishing `z` differences makes
the triple-product numerator zero. -/
theorem writheTerm_planeZ (c : List (ℝ × ℝ × ℝ)) (a : ℝ)
    (ha : ∀ p ∈ c, p.2.2 = a) (s m : ℕ) (hs : s < c.length) (hm : m < c.length) :
    writheTerm c s m = 0 := by
  have hNP : (0 : ℤ) < (c.length : ℤ) := by omega
  have hb1 : ((s : ℤ)).toNat < c.length := by omega
  have hb3 : ((m : ℤ)).toNat < c.length := by omega
  have hb2 : (incp (s : ℤ) 1 (c.length : ℤ)).toNat < c.length := by
    have := incp_lt (s : ℤ) 1 (c.length : ℤ) hNP
    have := incp_nonneg (s : ℤ) 1 (c.length : ℤ) hNP
    omega
  have hb4 : (incp (m : ℤ) 1 (c.length : ℤ)).toNat < c.length := by
    have := incp_lt (m : ℤ) 1 (c.length : ℤ) hNP
    have := incp_nonneg (m : ℤ) 1 (c.length : ℤ) hNP
    omega
  have h1 : (curveGet c (s : ℤ)).2.2 = a := ha _ (curveGet_mem c _ hb1)
  have h2 : (curveGet c (incp (s : ℤ) 1 (c.length : ℤ))).2.2 = a :=
    ha _ (curveGet_mem c _ hb2)
  have h3 : (curveGet c (m : ℤ)).2.2 = a := ha _ (curveGet_mem c _ hb3)
  have h4 : (curveGet c (incp (m : ℤ) 1 (c.length : ℤ))).2.2 = a :=
    ha _ (curveGet_mem c _ hb4)
  simp only [writheTerm, h1, h2, h3, h4]
  ring_nf

/-- Writhe summand of a curve lying in a plane of constant second
coordinate. -/
theorem writheTerm_planeY (c : List (ℝ × ℝ × ℝ)) (a : ℝ)
    (ha : ∀ p ∈ c, p.2.1 = a) (s m : ℕ) (hs : s < c.length) (hm : m < c.length) :
    writheTerm c s m = 0 := by
  have hNP : (0 : ℤ) < (c.length : ℤ) := by omega
  have hb1 : ((s : ℤ)).toNat < c.length := by omega
  have hb3 : ((m : ℤ)).toNat < c.length := by omega
  have hb2 : (incp (s : ℤ) 1 (c.length : ℤ)).toNat < c.length := by
    have := incp_lt (s : ℤ) 1 (c.length : ℤ) hNP
    have := incp_nonneg (s : ℤ) 1 (c.length : ℤ) hNP
    omega
  have hb4 : (incp (m : ℤ) 1 (c.length : ℤ)).toNat < c.length := by
    have := incp_lt (m : ℤ) 1 (c.length : ℤ) hNP
    have := incp_nonneg (m : ℤ) 1 (c.length : ℤ) hNP
    omega
  have h1 : (curveGet c (s : ℤ)).2.1 = a := ha _ (curveGet_mem c _ hb1)
  have h2 : (curveGet c (incp (s : ℤ) 1 (c.length : ℤ))).2.1 = a :=
    ha _ (curveGet_mem c _ hb2)
  have h3 : (curveGet c (m : ℤ)).2.1 = a := ha _ (curveGet_mem c _ hb3)
  have h4 : (curveGet c (incp (m : ℤ) 1 (c.length : ℤ))).2.1 = a :=
    ha _ (curveGet_mem c _ hb4)
  simp only [writheTerm, h1, h2, h3, h4]
  ring_nf

/-- Writhe summand of a curve lying in a plane of constant first
coordinate. -/
theorem writheTerm_planeX (c : List (ℝ × ℝ × ℝ)) (a : ℝ)
    (ha : ∀ p ∈ c, p.1 = a) (s m : ℕ) (hs : s < c.length) (hm : m < c.length) :
    writheTerm c s m = 0 := by
  have hNP : (0 : ℤ) < (c.length : ℤ) := by omega
  have hb1 : ((s : ℤ)).toNat < c.length := by omega
  have hb3 : ((m : ℤ)).toNat < c.length := by omega
  have hb2 : (incp (s : ℤ) 1 (c.length : ℤ)).toNat < c.length := by
    have := incp_lt (s : ℤ) 1 (c.length : ℤ) hNP
    have := incp_nonneg (s : ℤ) 1 (c.length : ℤ) hNP
    omega
  have hb4 : (incp (m : ℤ) 1 (c.length : ℤ)).toNat < c.length := by
    have := incp_lt (m : ℤ) 1 (c.length : ℤ) hNP
    have := incp_nonneg (m : ℤ) 1 (c.length : ℤ) hNP
    omega
  have h1 : (curveGet c (s : ℤ)).1 = a := ha _ (curveGet_mem c _ hb1)
  have h2 : (curveGet c (incp (s : ℤ) 1 (c.length : ℤ))).1 = a :=
    ha _ (curveGet_mem c _ hb2)
  have h3 : (curveGet c (m : ℤ)).1 = a := ha _ (curveGet_mem c _ hb3)
  have h4 : (curveGet c (incp (m : ℤ) 1 (c.length : ℤ))).1 = a :=
    ha _ (curveGet_mem c _ hb4)
  simp only [writheTerm, h1, h2, h3, h4]
  ring_nf

/-- C7: the total writhe of any closed polyline all of whose points lie in
a single coordinate plane is exactly zero in real arithmetic: every
summand of the double sum is a triple product of coplanar vectors. -/
theorem planar_writhe_zero (c : List (ℝ × ℝ × ℝ))
    (hplane : (∃ a, ∀ p ∈ c, p.1 = a) ∨ (∃ a, ∀ p ∈ c, p.2.1 = a) ∨
      (∃ a, ∀ p ∈ c, p.2.2 = a)) :
    totwrithe c = 0 := by
  unfold totwrithe
  refine Finset.sum_eq_zero fun s hs => ?_
  have hs' := Finset.mem_range.mp hs
  rw [mul_eq_zero]
  left
  refine Finset.sum_eq_zero fun m hm => ?_
  have hm' := Finset.mem_range.mp hm
  by_cases hsm : s = m
  · simp [hsm]
  · rw [if_pos hsm]
    rcases hplane with ⟨a, ha⟩ | ⟨a, ha⟩ | ⟨a, ha⟩
    · exact writheTerm_planeX c a ha s m hs' hm'
    · exact writheTerm_planeY c a ha s m hs' hm'
    · exact writheTerm_planeZ c a ha s m hs' hm'

/-- Witness for `planar_writhe_zero`: the unit square in the plane `z = 0`
has total writhe exactly zero. -/
theorem planar_writhe_zero_witness :
    (∀ p ∈ squareCurve, p.2.2 = (0 : ℝ)) ∧ totwrithe squareCurve = 0 := by
  have hp : ∀ p ∈ squareCurve, p.2.2 = (0 : ℝ) := by
    intro p hp
    simp only [squareCurve, List.mem_cons, List.not_mem_nil, or_false] at hp
    rcases hp with h | h | h | h <;> subst h <;> rfl
  exact ⟨hp, planar_writhe_zero squareCurve (Or.inr (Or.inr ⟨0, hp⟩))⟩

/-- The tracker loop places at most `(50001 - s) + 1` further points: an
iteration stops at once on an out-of-grid stencil, stops after one push on
closure or on passing the ceiling, and otherwise recurses with `s + 1`,
which is forced below the ceiling by the failed finish test. -/
theorem trackLoop_length (P : Params) (ux uy uz : Field) (s : ℕ)
    (curve : List (ℝ × ℝ × ℝ)) (d : ℝ × ℝ × ℝ) :
    (trackLoop P ux uy uz s curve d).1.length ≤ curve.length + (50001 - s) + 1 := by
  rw [trackLoop]
  split
  · dsimp only
    omega
  · dsimp only
    split
    · simp only [List.length_append, List.length_cons, List.length_nil]
      omega
    · rename_i h2
      refine le_trans (trackLoop_length P ux uy uz (s + 1) _ _) ?_
      have hs : ¬ 50000 < s := fun hh => h2 (Or.inr hh)
      simp only [List.length_append, List.length_cons, List.length_nil]
      omega
termination_by 50001 - s
decreasing_by
  omega

/-- The seam filling appends exactly 15 points. -/
theorem fillSeam_length (cd : List (ℝ × ℝ × ℝ) × (ℝ × ℝ × ℝ)) :
    (fillSeam cd).length = cd.1.length + 15 := by
  have gen : ∀ (n : ℕ) (c : List (ℝ × ℝ × ℝ)),
      ((List.range n).foldl
          (fun c _ =>
            let lastp := c.getD (c.length - 1) (0, 0, 0)
            c ++ [(lastp.1 + cd.2.1 / 16, lastp.2.1 + cd.2.2.1 / 16,
              lastp.2.2 + cd.2.2.2 / 16)])
          c).length = c.length + n := by
    intro n
    induction n with
    | zero => intro c; simp
    | succ n ih =>
      intro c
      rw [List.range_succ, List.foldl_append]
      simp only [List.foldl_cons, List.foldl_nil, List.length_append, List.length_cons,
        List.length_nil, ih]
      omega
  exact gen 15 cd.1

/-- C6: whatever the fields and the seed curve, the curve built by the
tracking part of `find_knot_properties` is bounded: the loop from `s = 1`
adds at most 50001 points (it must stop by `s = 50001` through the
ceiling test, if not earlier through closure or an out-of-grid stencil)
and the seam filling adds 15 more. -/
theorem find_knot_trace_bounded (P : Params) (ux uy uz : Field)
    (curve0 : List (ℝ × ℝ × ℝ)) :
    (find_knot_trace P ux uy uz curve0).length ≤ curve0.length + 50016 := by
  unfold find_knot_trace
  rw [fillSeam_length]
  have := trackLoop_length P ux uy uz 1 curve0 (0, 0, 0)
  omega

end FNKnot
